import Mathlib

/-
Verification of the OctaneShell command dispatch and background-process
management subsystem (src/main.rs) against its design specification.

The shallow embedding below translates the relevant Rust functions into
Lean definitions:
  * `expand_env_vars` — environment-variable expansion on the raw line
    (src/main.rs, `fn expand_env_vars`), with the process environment
    modelled as a function `String → Option String` standing for
    `std::env::var`;
  * `splitWhitespace` / `stripBackground` / `parseTokens` — the
    tokenization performed inline in `main` (`input.split_whitespace()`,
    the trailing-`&` pop, and the `parts[0]` / `parts[1..]` extraction);
  * `aliases` / `applyAlias` — the startup alias table and the full-line
    alias lookup in `main`;
  * the process table (`HashMap<u32, Child>` behind the mutex) is
    modelled as an association list with unique keys, with
    `lookupTable` / `tableRemove` / `tableInsert` mirroring
    `HashMap::get` / `HashMap::remove` / `HashMap::insert`;
  * `run_builtin` — the builtin dispatcher, with the OS-dependent
    effects (meval, set_current_dir, current_dir, Command::status,
    Child::kill) abstracted into a `SysEffects` record of result-valued
    functions;
  * `readStep` — the decision `main` takes on the result of
    `io::stdin().read_line` at the top of each loop iteration.

Rust `char::is_alphanumeric` / `char::is_whitespace` are full Unicode
classes; the Lean `Char.isAlphanum` / `Char.isWhitespace` used here are
their restrictions to ASCII, which agree on every input made of ASCII
characters.  Machine integers: the only one that matters is the `u32`
pid, modelled as `Nat` with the `< 2 ^ 32` bound enforced where the code
parses (`str::parse::<u32>` rejects overflow).
-/

/-- A character that may appear in a `$NAME` environment reference:
`ch.is_alphanumeric() || ch == '_'` in the source. -/
def isNameChar (c : Char) : Bool :=
  c.isAlphanum || c == '_'

/-- Fuel-indexed worker for `expand_env_vars`.  The fuel is only a
termination device: the wrapper passes the input length, which the
recursion never exhausts (`expandAux_congr` below).  The body mirrors the
source loop: a `$` collects the maximal run of name characters
(`takeWhile`/`dropWhile` stand for the inner `peek` loop), looks the name
up in the environment, and emits the value, or the literal `$NAME` when
the variable is unset; every other character is copied through. -/
def expandAux (env : String → Option String) : Nat → List Char → List Char
  | 0, _ => []
  | _ + 1, [] => []
  | fuel + 1, c :: rest =>
    if c = '$' then
      let name := rest.takeWhile isNameChar
      let rest2 := rest.dropWhile isNameChar
      (match env (String.mk name) with
       | some v => v.data
       | none => '$' :: name) ++ expandAux env fuel rest2
    else
      c :: expandAux env fuel rest

/-- `fn expand_env_vars(input: &str) -> String` from src/main.rs, with the
process environment passed explicitly. -/
def expand_env_vars (env : String → Option String) (input : String) : String :=
  String.mk (expandAux env input.data.length input.data)

/-- The startup alias table built at the top of `main`. -/
def aliases : List (String × String) :=
  [("ll", "ls -la"), ("..", "cd .."), ("h", "cd ~")]

/-- `aliases.get(input.as_str())`: exact full-line lookup in the alias
table. -/
def lookupAlias (line : String) : Option String :=
  (aliases.find? (fun p => p.1 = line)).map Prod.snd

/-- The alias substitution step of `main`: if the whole expanded line is a
trigger, replace it by the target, otherwise keep it. -/
def applyAlias (line : String) : String :=
  match lookupAlias line with
  | some r => r
  | none => line

/-- Worker for `splitWhitespace`: `acc` holds the characters of the token
currently being read, in reverse. -/
def splitWsAux : List Char → List Char → List String
  | acc, [] => if acc = [] then [] else [String.mk acc.reverse]
  | acc, c :: rest =>
    if c.isWhitespace then
      (if acc = [] then [] else [String.mk acc.reverse]) ++ splitWsAux [] rest
    else
      splitWsAux (c :: acc) rest

/-- `input.split_whitespace().collect()`: split on runs of whitespace,
producing no empty tokens. -/
def splitWhitespace (s : String) : List String :=
  splitWsAux [] s.data

/-- `str::trim`: the input without leading and trailing whitespace. -/
def trimString (s : String) : String :=
  String.mk (((s.data.dropWhile Char.isWhitespace).reverse.dropWhile
    Char.isWhitespace).reverse)

/-- The trailing background marker check of `main`:
`if parts.last() == Some(&"&") { parts.pop(); true } else { false }`.
Returns the remaining tokens and the background flag. -/
def stripBackground (parts : List String) : List String × Bool :=
  if parts.getLast? = some "&" then (parts.dropLast, true) else (parts, false)

/-- Outcome of tokenizing one normalized line in `main`. -/
inductive LineParse where
  /-- `parts.is_empty()` held and the iteration is skipped (`continue`). -/
  | skip
  /-- the index `parts[0]` was out of bounds: the process aborts. -/
  | panicOOB
  /-- `cmd = parts[0]`, `args = parts[1..]`, plus the background flag. -/
  | run (cmd : String) (args : List String) (background : Bool)
deriving DecidableEq

/-- The token-level part of `main`: the emptiness check, the `&` pop, and
the `parts[0]` / `parts[1..]` extraction.  `parts[0]` on an empty vector
is modelled as `panicOOB`. -/
def parseTokens (parts : List String) : LineParse :=
  if parts = [] then LineParse.skip
  else
    match stripBackground parts with
    | ([], _) => LineParse.panicOOB
    | (c :: as, bg) => LineParse.run c as bg

/-- Tokenization of a normalized (trimmed, expanded, alias-substituted)
line, as performed inline in `main`. -/
def parseLine (line : String) : LineParse :=
  parseTokens (splitWhitespace line)

/-- One whole front-end pass of a loop iteration of `main` over a raw
input line: trim, skip if empty, expand environment references, apply the
alias table, tokenize. -/
def handleLine (env : String → Option String) (raw : String) : LineParse :=
  let t := trimString raw
  if t = "" then LineParse.skip
  else parseLine (applyAlias (expand_env_vars env t))

/-- The process table `HashMap<u32, Child>` modelled as an association
list; the handle type is a parameter `α`.  The HashMap invariant (at most
one record per identifier) is carried as a `Nodup` hypothesis where the
proofs need it. -/
def lookupTable {α : Type} (pid : Nat) : List (Nat × α) → Option α
  | [] => none
  | (k, v) :: rest => if k = pid then some v else lookupTable pid rest

/-- `HashMap::remove(&pid)`: the removed value, if any, together with the
table without that record. -/
def tableRemove {α : Type} (pid : Nat) : List (Nat × α) → Option α × List (Nat × α)
  | [] => (none, [])
  | (k, v) :: rest =>
    if k = pid then (some v, rest)
    else
      let r := tableRemove pid rest
      (r.1, (k, v) :: r.2)

/-- `HashMap::insert(pid, child)`: replaces an existing record for the
key, otherwise appends a fresh one. -/
def tableInsert {α : Type} (pid : Nat) (c : α) : List (Nat × α) → List (Nat × α)
  | [] => [(pid, c)]
  | (k, v) :: rest =>
    if k = pid then (pid, c) :: rest else (k, v) :: tableInsert pid c rest

/-- `str::parse::<u32>`: an optional leading `+`, then one or more ASCII
digits, rejecting values that do not fit in 32 bits. -/
def parseU32 (s : String) : Option Nat :=
  let ds := match s.data with
    | '+' :: rest => rest
    | l => l
  if ds.isEmpty then none
  else if ds.all Char.isDigit then
    let n := ds.foldl (fun acc c => acc * 10 + (c.toNat - 48)) 0
    if n < 2 ^ 32 then some n else none
  else none

/-- Outcome of the `kill` builtin branch of `run_builtin`. -/
inductive KillOutcome where
  /-- `args.is_empty()`: the usage message is printed. -/
  | usage
  /-- the argument did not parse as a `u32`. -/
  | invalidPid
  /-- the record was removed and `child.kill()` succeeded. -/
  | killed (pid : Nat)
  /-- the record was removed but `child.kill()` returned an error. -/
  | killFailed (pid : Nat) (e : String)
  /-- no record with this identifier was in the table. -/
  | noSuchProcess (pid : Nat)
deriving DecidableEq

/-- The message each `kill` outcome prints. -/
def killMessage : KillOutcome → String
  | KillOutcome.usage => "Usage: kill <pid>"
  | KillOutcome.invalidPid => "Invalid PID"
  | KillOutcome.killed pid => "Killed process " ++ toString pid
  | KillOutcome.killFailed pid e =>
      "Failed to kill " ++ toString pid ++ ": " ++ e
  | KillOutcome.noSuchProcess pid =>
      "No such background process: " ++ toString pid

/-- The `kill` branch of `run_builtin`: check for a missing argument,
parse the pid, remove the record if present and issue `child.kill()`
(whose OS outcome is the parameter `killRes`), reporting the result.
Returns the outcome and the table after the call. -/
def runKill {α : Type} (killRes : α → Except String Unit) (args : List String)
    (t : List (Nat × α)) : KillOutcome × List (Nat × α) :=
  match args with
  | [] => (KillOutcome.usage, t)
  | a :: _ =>
    match parseU32 a with
    | none => (KillOutcome.invalidPid, t)
    | some pid =>
      let r := tableRemove pid t
      match r.1 with
      | some child =>
        match killRes child with
        | Except.ok _ => (KillOutcome.killed pid, r.2)
        | Except.error e => (KillOutcome.killFailed pid e, r.2)
      | none => (KillOutcome.noSuchProcess pid, r.2)

/-- The lines the `jobs` builtin prints for a given table state. -/
def jobsLines {α : Type} (t : List (Nat × α)) : List String :=
  if t.isEmpty then ["No background jobs"]
  else t.map (fun p => "PID " ++ toString p.1 ++ " - Running")

/-- The OS-dependent effects `run_builtin` and the launcher consume,
abstracted as result-valued functions: `meval::eval_str` (result already
rendered to text), `env::set_current_dir` (`some` an error message on
failure), `env::current_dir`, `Command::status` for the screen-clear
command (keyed by program name and argument list), `Child::kill`, and the
`cfg!(windows)` flag. -/
structure SysEffects (α : Type) where
  calcEval : String → Except String String
  cdResult : String → Option String
  pwdResult : Except String String
  clearStatus : String → List String → Except String Unit
  killResult : α → Except String Unit
  windows : Bool

/-- Result of one `run_builtin` call. -/
inductive BStep (α : Type) where
  /-- the first token is not a builtin name: fall through to the
  launcher (`run_builtin` returned `false`). -/
  | notHandled
  /-- the builtin ran: the printed lines and the table afterwards
  (`run_builtin` returned `true`). -/
  | handled (output : List String) (table : List (Nat × α))
  /-- `std::process::exit(0)` was called. -/
  | exited
  /-- an `unwrap()` failed: the whole process aborts. -/
  | panicked
deriving DecidableEq

/-- `fn run_builtin(cmd, args, bg_processes) -> bool` from src/main.rs:
the builtin dispatcher, matching the command name and executing the
builtin against the table state. -/
def run_builtin {α : Type} (fx : SysEffects α) (cmd : String)
    (args : List String) (t : List (Nat × α)) : BStep α :=
  match cmd with
  | "calc" =>
    if args.isEmpty then BStep.handled ["Usage: calc <expression>"] t
    else
      match fx.calcEval (String.intercalate " " args) with
      | Except.ok r => BStep.handled [r] t
      | Except.error e =>
          BStep.handled ["Error evaluating expression: " ++ e] t
  | "exit" => BStep.exited
  | "cd" =>
    let dir := (args.get? 0).getD "."
    match fx.cdResult dir with
    | some e => BStep.handled ["Error: " ++ e] t
    | none => BStep.handled [] t
  | "pwd" =>
    match fx.pwdResult with
    | Except.ok p => BStep.handled [p] t
    | Except.error e => BStep.handled ["Error: " ++ e] t
  | "clear" =>
    if fx.windows then
      match fx.clearStatus "cmd" ["/C", "cls"] with
      | Except.ok _ => BStep.handled [] t
      | Except.error _ => BStep.panicked
    else
      match fx.clearStatus "clear" [] with
      | Except.ok _ => BStep.handled [] t
      | Except.error _ => BStep.panicked
  | "jobs" => BStep.handled (jobsLines t) t
  | "kill" =>
    let r := runKill fx.killResult args t
    BStep.handled [killMessage r.1] r.2
  | _ => BStep.notHandled

/-- The message printed when a background launch succeeds. -/
def startedMessage (pid : Nat) : String :=
  "Started background job with PID " ++ toString pid

/-- The table after the given successful background launches (in order),
starting from the empty table: each launch inserts its record, exactly as
`bg_processes.lock().unwrap().insert(pid, child)` does. -/
def launchAll {α : Type} (ls : List (Nat × α)) : List (Nat × α) :=
  ls.foldl (fun t pc => tableInsert pc.1 pc.2 t) []

/-- What `main` does at the top of an iteration with the result of
`io::stdin().read_line`. -/
inductive LoopAction where
  /-- `break`: leave the loop, ending the program. -/
  | exitLoop
  /-- `continue`: skip to the next iteration. -/
  | skipIter
  /-- process the trimmed line. -/
  | runLine (line : String)
deriving DecidableEq

/-- The read step of `main`: `read_line` failing with an error breaks the
loop; otherwise the line is trimmed and an empty result skips the
iteration. -/
def readStep (r : Except Unit String) : LoopAction :=
  match r with
  | Except.error _ => LoopAction.exitLoop
  | Except.ok raw =>
    if trimString raw = "" then LoopAction.skipIter
    else LoopAction.runLine (trimString raw)

/-- End-of-file on standard input as `read_line` reports it: the call
succeeds (`Ok(0)`) and appends nothing to the fresh buffer, so the read
text is empty. -/
def eofRead : Except Unit String := Except.ok ""

/-- The character-list worker of `expand_env_vars`, with the fuel fixed
to the input length. -/
def expandChars (env : String → Option String) (l : List Char) : List Char :=
  expandAux env l.length l

/-- Test fixture: an environment with no variables set. -/
def envNone : String → Option String := fun _ => none

/-- Test fixture: an environment where only `USER` is set, to `me`. -/
def envUser : String → Option String :=
  fun n => if n = "USER" then some "me" else none

/-- Test fixture: effects where every OS call succeeds. -/
def fxOk : SysEffects Unit :=
  { calcEval := fun _ => Except.ok "0", cdResult := fun _ => none,
    pwdResult := Except.ok "/", clearStatus := fun _ _ => Except.ok (),
    killResult := fun _ => Except.ok (), windows := false }

/-- Test fixture: effects where spawning the screen-clear command fails. -/
def fxClearErr : SysEffects Unit :=
  { calcEval := fun _ => Except.ok "0", cdResult := fun _ => none,
    pwdResult := Except.ok "/", clearStatus := fun _ _ => Except.error "spawn failed",
    killResult := fun _ => Except.ok (), windows := false }


/-! ### Helper lemmas about the table model -/

theorem lookupTable_eq_none_of_not_mem {α : Type} (pid : Nat) :
    ∀ t : List (Nat × α), pid ∉ t.map Prod.fst → lookupTable pid t = none := by
  intro t
  induction t with
  | nil => intro _; rfl
  | cons hd tl ih =>
    intro h
    simp only [List.map_cons, List.mem_cons] at h
    push_neg at h
    have hne : ¬ hd.1 = pid := fun he => h.1 he.symm
    simp [lookupTable, hne, ih h.2]

theorem tableRemove_fst {α : Type} (pid : Nat) :
    ∀ t : List (Nat × α), (tableRemove pid t).1 = lookupTable pid t := by
  intro t
  induction t with
  | nil => rfl
  | cons hd tl ih =>
    by_cases h : hd.1 = pid
    · simp [tableRemove, lookupTable, h]
    · simp [tableRemove, lookupTable, h, ih]

theorem tableRemove_frame {α : Type} (pid k : Nat) (hk : k ≠ pid) :
    ∀ t : List (Nat × α), lookupTable k (tableRemove pid t).2 = lookupTable k t := by
  intro t
  induction t with
  | nil => rfl
  | cons hd tl ih =>
    by_cases h : hd.1 = pid
    · have hk2 : ¬ hd.1 = k := fun he => hk (by rw [← he, h])
      have hpk : ¬ pid = k := fun he => hk he.symm
      simp [tableRemove, lookupTable, h, hk2, hpk]
    · by_cases h2 : hd.1 = k
      · simp [tableRemove, lookupTable, h, h2, hk]
      · simp [tableRemove, lookupTable, h, h2, ih]

theorem tableRemove_lookup_self {α : Type} (pid : Nat) :
    ∀ t : List (Nat × α), (t.map Prod.fst).Nodup →
      lookupTable pid (tableRemove pid t).2 = none := by
  intro t
  induction t with
  | nil => intro _; rfl
  | cons hd tl ih =>
    intro hnd
    simp only [List.map_cons, List.nodup_cons] at hnd
    by_cases h : hd.1 = pid
    · simp only [tableRemove, if_pos h]
      exact lookupTable_eq_none_of_not_mem pid tl (h ▸ hnd.1)
    · simp only [tableRemove, if_neg h, lookupTable]
      exact ih hnd.2

theorem tableRemove_of_lookup_none {α : Type} (pid : Nat) :
    ∀ t : List (Nat × α), lookupTable pid t = none → (tableRemove pid t).2 = t := by
  intro t
  induction t with
  | nil => intro _; rfl
  | cons hd tl ih =>
    intro h
    rw [lookupTable] at h
    by_cases he : hd.1 = pid
    · rw [if_pos he] at h; exact absurd h (by simp)
    · rw [if_neg he] at h
      simp only [tableRemove, if_neg he, ih h]

theorem tableInsert_of_not_mem {α : Type} (pid : Nat) (c : α) :
    ∀ t : List (Nat × α), pid ∉ t.map Prod.fst → tableInsert pid c t = t ++ [(pid, c)] := by
  intro t
  induction t with
  | nil => intro _; rfl
  | cons hd tl ih =>
    intro h
    simp only [List.map_cons, List.mem_cons] at h
    push_neg at h
    have hne : ¬ hd.1 = pid := fun he => h.1 he.symm
    simp [tableInsert, hne, ih h.2]

/-! ### Helper lemmas about environment expansion -/

theorem expandAux_congr (env : String → Option String) :
    ∀ f1 f2 l, l.length ≤ f1 → l.length ≤ f2 →
      expandAux env f1 l = expandAux env f2 l := by
  intro f1
  induction f1 with
  | zero =>
    intro f2 l h1 _
    have hl : l = [] := List.length_eq_zero.mp (Nat.le_zero.mp h1)
    subst hl
    cases f2 <;> rfl
  | succ g1 ih =>
    intro f2 l h1 h2
    cases l with
    | nil => cases f2 <;> rfl
    | cons c rest =>
      cases f2 with
      | zero => exact absurd h2 (by simp)
      | succ g2 =>
        have h1r : rest.length ≤ g1 := by
          simp only [List.length_cons] at h1; omega
        have h2r : rest.length ≤ g2 := by
          simp only [List.length_cons] at h2; omega
        simp only [expandAux]
        by_cases hc : c = '$'
        · rw [if_pos hc, if_pos hc]
          congr 1
          exact ih g2 _
            (le_trans ((List.dropWhile_sublist isNameChar).length_le) h1r)
            (le_trans ((List.dropWhile_sublist isNameChar).length_le) h2r)
        · rw [if_neg hc, if_neg hc]
          congr 1
          exact ih g2 rest h1r h2r

theorem takeWhile_name_append (name s : List Char)
    (h1 : ∀ c ∈ name, isNameChar c = true)
    (h2 : ∀ c, s.head? = some c → isNameChar c = false) :
    (name ++ s).takeWhile isNameChar = name ∧
    (name ++ s).dropWhile isNameChar = s := by
  induction name with
  | nil =>
    simp only [List.nil_append]
    cases s with
    | nil => exact ⟨rfl, rfl⟩
    | cons c s2 =>
      have hc := h2 c rfl
      simp [List.takeWhile_cons, List.dropWhile_cons, hc]
  | cons n name2 ih =>
    have hn : isNameChar n = true := h1 n (List.mem_cons_self n name2)
    have ih2 := ih (fun c hc => h1 c (List.mem_cons_of_mem n hc))
    simp [List.takeWhile_cons, List.dropWhile_cons, hn, ih2.1, ih2.2]

/-! ### Helper lemma about repeated background insertion -/

theorem foldl_tableInsert_fresh {α : Type} :
    ∀ (ls acc : List (Nat × α)),
      (acc.map Prod.fst ++ ls.map Prod.fst).Nodup →
      ls.foldl (fun t pc => tableInsert pc.1 pc.2 t) acc = acc ++ ls := by
  intro ls
  induction ls with
  | nil => intro acc _; simp
  | cons p rest ih =>
    intro acc hnd
    simp only [List.map_cons] at hnd
    obtain ⟨hn1, hn2, hdisj⟩ := List.nodup_append.mp hnd
    have hmem : p.1 ∉ acc.map Prod.fst :=
      fun hm => hdisj hm (List.mem_cons_self p.1 (rest.map Prod.fst))
    simp only [List.foldl_cons]
    rw [tableInsert_of_not_mem p.1 p.2 acc hmem]
    have hnd2 : ((acc ++ [(p.1, p.2)]).map Prod.fst ++ rest.map Prod.fst).Nodup := by
      simpa [List.append_assoc] using hnd
    rw [ih (acc ++ [(p.1, p.2)]) hnd2]
    simp

/-! ### Claim theorems -/

/-- C1: the code exits the read-eval loop only when `read_line` returns an
error.  At end-of-file the call succeeds with zero bytes read, the trimmed
line is empty, and the iteration is skipped — another iteration follows,
contradicting the claim that no further iterations occur after EOF.  This
theorem evaluates the read step at both inputs: a read error breaks the
loop, but EOF does not. -/
theorem read_loop_eof_behavior :
    readStep (Except.error ()) = LoopAction.exitLoop
  ∧ readStep eofRead = LoopAction.skipIter
  ∧ LoopAction.skipIter ≠ LoopAction.exitLoop := by
  exact ⟨rfl, by decide, by decide⟩

/-- C2: the `clear` builtin invokes the platform's screen-clear command,
and when `Command::status` returns an error the `unwrap()` in the source
aborts the whole shell (`panicked`) instead of discarding the error; only
the successful status is discarded.  This contradicts the claim that a
failure of the external call is never fatal. -/
theorem clear_error_panics {α : Type} (fx : SysEffects α) (args : List String)
    (t : List (Nat × α)) :
    ((∃ e, fx.clearStatus (if fx.windows then "cmd" else "clear")
        (if fx.windows then ["/C", "cls"] else []) = Except.error e) →
      run_builtin fx "clear" args t = BStep.panicked)
  ∧ (∀ u, fx.clearStatus (if fx.windows then "cmd" else "clear")
        (if fx.windows then ["/C", "cls"] else []) = Except.ok u →
      run_builtin fx "clear" args t = BStep.handled [] t) := by
  cases hw : fx.windows
  · constructor
    · rintro ⟨e, he⟩
      simp only [hw, if_neg Bool.false_ne_true] at he
      simp [run_builtin, hw, he]
    · intro u hu
      simp only [hw, if_neg Bool.false_ne_true] at hu
      simp [run_builtin, hw, hu]
  · constructor
    · rintro ⟨e, he⟩
      simp only [hw, if_true] at he
      simp [run_builtin, hw, he]
    · intro u hu
      simp only [hw, if_true] at hu
      simp [run_builtin, hw, hu]

/-- Witness for `clear_error_panics`: with the fixture whose screen-clear
spawn fails, the `clear` builtin aborts the shell. -/
theorem clear_error_panics_witness :
    run_builtin fxClearErr "clear" [] ([] : List (Nat × Unit)) = BStep.panicked :=
  (clear_error_panics fxClearErr [] []).1 ⟨"spawn failed", rfl⟩

/-- C3 counterexample: the line consisting solely of the token `&` is not
skipped and yields no command token: the `&` is popped, the token list
becomes empty, and `parts[0]` is out of bounds, so the extraction is not
always in bounds. -/
theorem ampersand_only_line_panics :
    handleLine envNone "&" = LineParse.panicOOB := by decide

/-- C3 (amended): extracting the command name is in bounds for every
non-empty token list except the single-token list `["&"]`: the index
`parts[0]` panics exactly when the line's tokens are just the background
marker, and any other non-empty token list yields a command token. -/
theorem parseTokens_inbounds_amended (parts : List String) :
    (parseTokens parts = LineParse.panicOOB ↔ parts = ["&"])
  ∧ (parts ≠ [] → parts ≠ ["&"] →
      ∃ c as bg, parseTokens parts = LineParse.run c as bg) := by
  match parts with
  | [] =>
    refine ⟨?_, fun h _ => absurd rfl h⟩
    simp [parseTokens]
  | [p] =>
    by_cases hp : p = "&"
    · subst hp
      exact ⟨by decide, fun _ h2 => absurd rfl h2⟩
    · have hne : ¬ (([p] : List String).getLast? = some "&") := by
        simp [List.getLast?, hp]
      refine ⟨?_, fun _ _ => ⟨p, [], false, ?_⟩⟩
      · simp [parseTokens, stripBackground, hne, hp]
      · simp [parseTokens, stripBackground, hne, hp]
  | p :: q :: rest =>
    by_cases hl : (p :: q :: rest).getLast? = some "&"
    · refine ⟨?_, fun _ _ => ⟨p, (q :: rest).dropLast, true, ?_⟩⟩
      · simp [parseTokens, stripBackground, hl]
      · simp [parseTokens, stripBackground, hl]
    · rw [List.getLast?_cons_cons] at hl
      refine ⟨?_, fun _ _ => ⟨p, q :: rest, false, ?_⟩⟩
      · simp [parseTokens, stripBackground, hl]
      · simp [parseTokens, stripBackground, hl]

/-- Witness for `parseTokens_inbounds_amended`: the two-token list
`["sleep", "&"]` is neither empty nor `["&"]`, and indeed yields the
command token `sleep` with background flag set. -/
theorem parseTokens_inbounds_amended_witness :
    (["sleep", "&"] : List String) ≠ []
  ∧ (["sleep", "&"] : List String) ≠ ["&"]
  ∧ ∃ c as bg, parseTokens ["sleep", "&"] = LineParse.run c as bg :=
  ⟨by decide, by decide,
   (parseTokens_inbounds_amended ["sleep", "&"]).2 (by decide) (by decide)⟩

/-- C4: for every table and identifier, the `kill` removal step
(`bg.remove(&pid)`) returns the record for the identifier exactly when it
is present, leaves the identifier absent afterwards, never changes any
other identifier's record, and leaves the table entirely unchanged when
the identifier is absent. -/
theorem kill_removes_exactly_target {α : Type} (pid : Nat) (t : List (Nat × α))
    (hnd : (t.map Prod.fst).Nodup) :
    (tableRemove pid t).1 = lookupTable pid t
  ∧ lookupTable pid (tableRemove pid t).2 = none
  ∧ (∀ k, k ≠ pid → lookupTable k (tableRemove pid t).2 = lookupTable k t)
  ∧ (lookupTable pid t = none → (tableRemove pid t).2 = t) :=
  ⟨tableRemove_fst pid t, tableRemove_lookup_self pid t hnd,
   fun k hk => tableRemove_frame pid k hk t, tableRemove_of_lookup_none pid t⟩

/-- Witness for `kill_removes_exactly_target` at the concrete table
`[(1, 0), (2, 0)]` and identifier `1`. -/
theorem kill_removes_exactly_target_witness :
    lookupTable 1 (tableRemove 1 [(1, 0), (2, 0)]).2 = none
  ∧ lookupTable 2 (tableRemove 1 [(1, 0), (2, 0)]).2 = some 0 := by
  have h := kill_removes_exactly_target 1 [(1, 0), (2, 0)] (by decide)
  exact ⟨h.2.1, (h.2.2.1 2 (by decide)).trans (by decide)⟩

/-- C5: with a non-empty argument list, the `kill` builtin produces
exactly one of three outcomes, keyed by the parse result and the table
lookup: (1) the argument does not parse as a `u32`, `Invalid PID` is the
outcome and the table is unchanged; (2) the identifier is present, its
record is removed (no other record changes) and termination is attempted,
the outcome reporting success or the termination error; (3) the
identifier is absent, a no-such-process outcome is produced and the table
is unchanged.  The three guards (parse failure, present, absent) are
mutually exclusive, so exactly one disjunct applies to any call. -/
theorem kill_builtin_trichotomy {α : Type} (killRes : α → Except String Unit)
    (a : String) (rest : List String) (t : List (Nat × α))
    (hnd : (t.map Prod.fst).Nodup) :
    (parseU32 a = none ∧
      runKill killRes (a :: rest) t = (KillOutcome.invalidPid, t))
  ∨ (∃ pid c, parseU32 a = some pid ∧ lookupTable pid t = some c ∧
      lookupTable pid (runKill killRes (a :: rest) t).2 = none ∧
      (∀ k, k ≠ pid →
        lookupTable k (runKill killRes (a :: rest) t).2 = lookupTable k t) ∧
      ((runKill killRes (a :: rest) t).1 = KillOutcome.killed pid ∨
       ∃ e, (runKill killRes (a :: rest) t).1 = KillOutcome.killFailed pid e))
  ∨ (∃ pid, parseU32 a = some pid ∧ lookupTable pid t = none ∧
      runKill killRes (a :: rest) t = (KillOutcome.noSuchProcess pid, t)) := by
  cases hp : parseU32 a with
  | none => exact Or.inl ⟨rfl, by simp [runKill, hp]⟩
  | some pid =>
    cases hl : lookupTable pid t with
    | none =>
      refine Or.inr (Or.inr ⟨pid, rfl, hl, ?_⟩)
      have hr1 : (tableRemove pid t).1 = none := (tableRemove_fst pid t).trans hl
      have hr2 : (tableRemove pid t).2 = t := tableRemove_of_lookup_none pid t hl
      simp [runKill, hp, hr1, hr2]
    | some c =>
      have hr1 : (tableRemove pid t).1 = some c := (tableRemove_fst pid t).trans hl
      have h2 : (runKill killRes (a :: rest) t).2 = (tableRemove pid t).2 := by
        simp only [runKill, hp, hr1]
        cases hk : killRes c with
        | ok u => simp [hk]
        | error e => simp [hk]
      refine Or.inr (Or.inl ⟨pid, c, rfl, hl, ?_, ?_, ?_⟩)
      · rw [h2]
        exact tableRemove_lookup_self pid t hnd
      · intro k hk
        rw [h2]
        exact tableRemove_frame pid k hk t
      · simp only [runKill, hp, hr1]
        cases hk : killRes c with
        | ok u => exact Or.inl (by simp [hk])
        | error e => exact Or.inr ⟨e, by simp [hk]⟩

/-- Witness for `kill_builtin_trichotomy` at the concrete call
`kill 2` against the table `[(2, ()), (5, ())]` with a succeeding
termination request. -/
theorem kill_builtin_trichotomy_witness :
    (parseU32 "2" = none ∧
      runKill (fun _ : Unit => Except.ok ()) ["2"] [(2, ()), (5, ())] =
        (KillOutcome.invalidPid, [(2, ()), (5, ())]))
  ∨ (∃ pid c, parseU32 "2" = some pid ∧
      lookupTable pid [(2, ()), (5, ())] = some c ∧
      lookupTable pid (runKill (fun _ : Unit => Except.ok ()) ["2"] [(2, ()), (5, ())]).2 = none ∧
      (∀ k, k ≠ pid →
        lookupTable k (runKill (fun _ : Unit => Except.ok ()) ["2"] [(2, ()), (5, ())]).2 =
          lookupTable k [(2, ()), (5, ())]) ∧
      ((runKill (fun _ : Unit => Except.ok ()) ["2"] [(2, ()), (5, ())]).1 =
          KillOutcome.killed pid ∨
       ∃ e, (runKill (fun _ : Unit => Except.ok ()) ["2"] [(2, ()), (5, ())]).1 =
          KillOutcome.killFailed pid e))
  ∨ (∃ pid, parseU32 "2" = some pid ∧
      lookupTable pid [(2, ()), (5, ())] = none ∧
      runKill (fun _ : Unit => Except.ok ()) ["2"] [(2, ()), (5, ())] =
        (KillOutcome.noSuchProcess pid, [(2, ()), (5, ())])) :=
  kill_builtin_trichotomy (fun _ => Except.ok ()) "2" [] [(2, ()), (5, ())] (by decide)

/-- C6: for every input line, splitting on runs of whitespace and then
checking the trailing background marker behaves as specified: when the
last token is exactly `&` the flag is true and the token list is the
original with that final token removed; otherwise the flag is false and
the token list is untouched; and whenever tokens remain, the first is the
command name and the rest are the positional arguments. -/
theorem tokenizer_background_marker (line : String) :
    ((splitWhitespace line).getLast? = some "&" →
      (stripBackground (splitWhitespace line)).2 = true ∧
      (stripBackground (splitWhitespace line)).1 ++ ["&"] = splitWhitespace line)
  ∧ ((splitWhitespace line).getLast? ≠ some "&" →
      stripBackground (splitWhitespace line) = (splitWhitespace line, false))
  ∧ (∀ c as, (stripBackground (splitWhitespace line)).1 = c :: as →
      parseLine line = LineParse.run c as (stripBackground (splitWhitespace line)).2) := by
  refine ⟨?_, ?_, ?_⟩
  · intro h
    have hne : splitWhitespace line ≠ [] := by
      intro he; rw [he] at h; exact absurd h (by simp)
    constructor
    · simp [stripBackground, h]
    · have hlast : (splitWhitespace line).getLast hne = "&" := by
        rw [List.getLast?_eq_getLast _ hne] at h
        exact (Option.some.inj h)
      rw [stripBackground, if_pos h]
      calc (splitWhitespace line).dropLast ++ ["&"]
          = (splitWhitespace line).dropLast ++ [(splitWhitespace line).getLast hne] := by
            rw [hlast]
        _ = splitWhitespace line := List.dropLast_append_getLast hne
  · intro h
    rw [stripBackground, if_neg h]
  · intro c as h
    have hne : splitWhitespace line ≠ [] := by
      intro he
      rw [he] at h
      simp [stripBackground] at h
    have hpair : stripBackground (splitWhitespace line) =
        (c :: as, (stripBackground (splitWhitespace line)).2) := by
      exact Prod.ext h rfl
    rw [parseLine, parseTokens, if_neg hne, hpair]

/-- Witness for `tokenizer_background_marker`: the line `ls -la &` has the
background flag set with the `&` removed, and the line `echo hi` yields
command `echo` with argument `hi`. -/
theorem tokenizer_background_marker_witness :
    (stripBackground (splitWhitespace "ls -la &")).2 = true
  ∧ (stripBackground (splitWhitespace "ls -la &")).1 ++ ["&"] =
      splitWhitespace "ls -la &"
  ∧ parseLine "echo hi" = LineParse.run "echo" ["hi"] false := by
  have h := tokenizer_background_marker "ls -la &"
  have h2 := tokenizer_background_marker "echo hi"
  refine ⟨(h.1 (by decide)).1, (h.1 (by decide)).2, ?_⟩
  calc parseLine "echo hi"
      = LineParse.run "echo" ["hi"] (stripBackground (splitWhitespace "echo hi")).2 :=
        h2.2.2 "echo" ["hi"] (by decide)
    _ = LineParse.run "echo" ["hi"] false := by decide

/-- Unfolding lemma: expansion at a `$` followed by a maximal name run
emits the environment value, or the literal reference when the variable
is unset, and continues on the remainder. -/
theorem expandChars_dollar (env : String → Option String) (name s : List Char)
    (hname : ∀ c ∈ name, isNameChar c = true)
    (hbound : ∀ c, s.head? = some c → isNameChar c = false) :
    expandChars env ('$' :: (name ++ s)) =
      (match env (String.mk name) with
       | some v => v.data
       | none => '$' :: name) ++ expandChars env s := by
  obtain ⟨ht, hd⟩ := takeWhile_name_append name s hname hbound
  simp only [expandChars, List.length_cons]
  rw [expandAux, if_pos rfl, ht, hd]
  dsimp only
  congr 1
  exact expandAux_congr env (name ++ s).length s.length s (by simp) (le_refl _)

/-- C7: environment expansion replaces each `$NAME` reference (NAME a
maximal run of name characters right after `$`) by the variable's value
when set; when unset the literal `$NAME` is kept (with `NAME = []` this
also covers a bare `$` not followed by a name character, since no
environment sets the empty name); every non-`$` character passes through
unchanged; and the stage is a total function of the input text (it cannot
fail), `expand_env_vars` being precisely its string wrapper. -/
theorem expand_env_vars_spec (env : String → Option String) (name s : List Char)
    (hname : ∀ c ∈ name, isNameChar c = true)
    (hbound : ∀ c, s.head? = some c → isNameChar c = false) :
    (∀ v, env (String.mk name) = some v →
      expandChars env ('$' :: (name ++ s)) = v.data ++ expandChars env s)
  ∧ (env (String.mk name) = none →
      expandChars env ('$' :: (name ++ s)) = '$' :: (name ++ expandChars env s))
  ∧ (∀ c rest, c ≠ '$' →
      expandChars env (c :: rest) = c :: expandChars env rest)
  ∧ (∀ input : String, expand_env_vars env input = String.mk (expandChars env input.data)) := by
  refine ⟨?_, ?_, ?_, fun _ => rfl⟩
  · intro v hv
    rw [expandChars_dollar env name s hname hbound, hv]
  · intro hv
    rw [expandChars_dollar env name s hname hbound, hv]
    simp
  · intro c rest hc
    simp only [expandChars, List.length_cons]
    rw [expandAux, if_neg hc]

/-- Witness for `expand_env_vars_spec`: with only `USER` set to `me`,
the reference `$USER` is replaced by `me` and the reference `$HOME` is
kept literally. -/
theorem expand_env_vars_spec_witness :
    expandChars envUser ('$' :: ("USER".data ++ " x".data)) =
      "me".data ++ expandChars envUser " x".data
  ∧ expandChars envUser ('$' :: ("HOME".data ++ " x".data)) =
      '$' :: ("HOME".data ++ expandChars envUser " x".data) := by
  have h1 := expand_env_vars_spec envUser "USER".data " x".data (by decide) (by decide)
  have h2 := expand_env_vars_spec envUser "HOME".data " x".data (by decide) (by decide)
  exact ⟨h1.1 "me" (by decide), h2.2.1 (by decide)⟩

/-- C8: after expansion, a line that exactly equals an alias trigger is
replaced wholesale by the target, a line matching no trigger is left
unchanged, and matching is on the full line: `ll` is a trigger with
target `ls -la`, yet `ll -a` is not replaced. -/
theorem alias_full_line_match (env : String → Option String) (raw : String) :
    (∀ tgt, lookupAlias (expand_env_vars env raw) = some tgt →
      applyAlias (expand_env_vars env raw) = tgt)
  ∧ (lookupAlias (expand_env_vars env raw) = none →
      applyAlias (expand_env_vars env raw) = expand_env_vars env raw)
  ∧ lookupAlias "ll" = some "ls -la"
  ∧ applyAlias "ll -a" = "ll -a" := by
  refine ⟨?_, ?_, by decide, by decide⟩
  · intro tgt h
    simp [applyAlias, h]
  · intro h
    simp [applyAlias, h]

/-- Witness for `alias_full_line_match`: with no environment variables
set, the raw line `ll` expands to itself and is replaced by `ls -la`. -/
theorem alias_full_line_match_witness :
    applyAlias (expand_env_vars envNone "ll") = "ls -la" :=
  (alias_full_line_match envNone "ll").1 "ls -la" (by decide)

/-- C9: after N successful background launches with (OS-unique)
identifiers and zero kills, the table holds exactly the launched records,
so `jobs` lists exactly N lines, each naming an identifier from a
previously printed started-background-job message; and on the empty table
`jobs` prints the no-background-jobs message instead. -/
theorem jobs_after_background_launches {α : Type} (ls : List (Nat × α))
    (hnd : (ls.map Prod.fst).Nodup) :
    launchAll ls = ls
  ∧ (ls ≠ [] →
      (jobsLines (launchAll ls)).length = ls.length ∧
      ∀ line ∈ jobsLines (launchAll ls), ∃ pid,
        startedMessage pid ∈ ls.map (fun pc => startedMessage pc.1) ∧
        line = "PID " ++ toString pid ++ " - Running")
  ∧ (ls = [] → jobsLines (launchAll ls) = ["No background jobs"]) := by
  have hall : launchAll ls = ls := by
    have h := foldl_tableInsert_fresh ls [] (by simpa using hnd)
    simpa [launchAll] using h
  refine ⟨hall, ?_, ?_⟩
  · intro hne
    rw [hall]
    have hisEmpty : ls.isEmpty = false := by
      cases ls with
      | nil => exact absurd rfl hne
      | cons a b => rfl
    constructor
    · simp [jobsLines, hisEmpty]
    · intro line hline
      simp only [jobsLines, hisEmpty, Bool.false_eq_true, if_false] at hline
      obtain ⟨pc, hpc, heq⟩ := List.mem_map.mp hline
      exact ⟨pc.1, List.mem_map_of_mem (fun q => startedMessage q.1) hpc, heq.symm⟩
  · intro he
    subst he
    rfl

/-- Witness for `jobs_after_background_launches` at the concrete launch
sequence with identifiers 3 and 7, and at the empty launch sequence. -/
theorem jobs_after_background_launches_witness :
    launchAll [(3, ()), (7, ())] = [(3, ()), (7, ())]
  ∧ (jobsLines (launchAll [(3, ()), (7, ())])).length = 2
  ∧ jobsLines (launchAll ([] : List (Nat × Unit))) = ["No background jobs"] := by
  have h := jobs_after_background_launches [(3, ()), (7, ())] (by decide)
  have h0 := jobs_after_background_launches ([] : List (Nat × Unit)) (by decide)
  exact ⟨h.1, (h.2.1 (by decide)).1, h0.2.2 rfl⟩

/-- C10: the `jobs` builtin is read-only on the process table: for every
effect environment, argument list and table state, it reports handled
with the table exactly as it was, inserting, removing and modifying
nothing. -/
theorem jobs_preserves_table {α : Type} (fx : SysEffects α) (args : List String)
    (t : List (Nat × α)) :
    ∃ out, run_builtin fx "jobs" args t = BStep.handled out t :=
  ⟨jobsLines t, rfl⟩
